import Mathlib

/-!
Verification of the question-normalization and scoring engine of the
practice-test app (src/app.py).

The engine is embedded shallowly:
* Python strings are Lean `String`s; `s.strip().lower()` is modelled
  character-wise over `String.data` so that it evaluates by `decide`.
* The dynamically-typed `answer` field (int | str | list) is the inductive `Ans`.
* `normalize_and_shuffle`'s per-question loop body is split into its two
  halves `normalizeQ` (answer normalization) and `shuffleQ` (choice shuffling
  with answer remapping); the random permutation drawn by `random.shuffle` is
  an explicit parameter `order`, quantified over all permutations of
  `range(len(choices))`.
* The Streamlit submit/skip handlers and the session dictionary
  (`qs`, `i`, `score`, `done`, `answers`, `deadline`) are `SessionState` with
  explicit step functions; `st.stop()` and an uncaught exception both leave
  the session unchanged and append no record, so the submit handler returns
  `Option SessionState` with `none` for those aborted runs.
-/

/-- Element of a raw `answer` list in the question bank: a Python int or string. -/
inductive AnsElem where
  | int : Int → AnsElem
  | str : String → AnsElem
deriving DecidableEq

/-- The dynamically-typed `answer` field of a question: an integer index, a
text value, or a list of integers/texts. -/
inductive Ans where
  | int : Int → Ans
  | str : String → Ans
  | list : List AnsElem → Ans
deriving DecidableEq

/-- A raw question record as loaded from a bank. An absent `choices` key is
modelled as the empty list, matching the truthiness test `q.get("choices")`
which treats absent and empty alike. -/
structure Question where
  prompt : String
  choices : List String
  answer : Ans
  explanation : Option String
deriving DecidableEq

/-- Python `sorted(set(l))` on a list of ints: the distinct elements in
ascending order. -/
def pySortedSet (l : List Int) : List Int := List.insertionSort (· ≤ ·) l.dedup

/-- Resolution of one element of a list-valued `answer` during normalization
(src/app.py lines 38-42): an int is kept when in `[0, len(choices))`, a string
is replaced by the index of its first occurrence in `choices`; anything else
is dropped. -/
def resolveElem (ch : List String) (a : AnsElem) : Option Int :=
  match a with
  | AnsElem.int n => if 0 ≤ n ∧ n < (ch.length : Int) then some n else none
  | AnsElem.str s => if s ∈ ch then some ((ch.indexOf s : Nat) : Int) else none

/-- Normalization half of `normalize_and_shuffle`'s loop body (src/app.py
lines 30-46): only questions with non-empty `choices` are touched; a list
answer becomes the sorted set of resolved indices, a string answer matching a
choice becomes its index, and everything else (ints, in range or not, and
non-matching strings) is left as-is. -/
def normalizeQ (q : Question) : Question :=
  if q.choices.isEmpty then q
  else
    match q.answer with
    | Ans.list as =>
        { q with answer :=
            Ans.list ((pySortedSet (as.filterMap (resolveElem q.choices))).map AnsElem.int) }
    | Ans.str s =>
        if s ∈ q.choices then
          { q with answer := Ans.int ((q.choices.indexOf s : Nat) : Int) }
        else q
    | Ans.int _ => q

/-- Application of the drawn permutation to the choice list:
`[ch[i] for i in order]` (src/app.py line 53). -/
def permuteChoices (ch : List String) (order : List Nat) : List String :=
  order.map fun j => ch.getD j ""

/-- Remapping of one element of a list answer to its post-shuffle position
(src/app.py lines 60-62): in-range ints become `order.index(i)`, everything
else is dropped. -/
def remapElem (order : List Nat) (e : AnsElem) : Option Int :=
  match e with
  | AnsElem.int n =>
      if 0 ≤ n ∧ n < (order.length : Int) then
        some ((order.indexOf n.toNat : Nat) : Int)
      else none
  | AnsElem.str _ => none

/-- Choice-shuffling half of `normalize_and_shuffle`'s loop body (src/app.py
lines 48-63), with the permutation produced by `random.shuffle` made an
explicit parameter: `choices` becomes `[ch[i] for i in order]`, an in-range
int answer is remapped to `order.index(answer)`, a list answer has each
in-range int element remapped the same way and is re-sorted/deduplicated, and
any other answer value is left as-is. -/
def shuffleQ (q : Question) (order : List Nat) : Question :=
  if q.choices.isEmpty then q
  else
    let newAnswer :=
      match q.answer with
      | Ans.int n =>
          if 0 ≤ n ∧ n < (order.length : Int) then
            Ans.int ((order.indexOf n.toNat : Nat) : Int)
          else q.answer
      | Ans.list cs =>
          Ans.list ((pySortedSet (cs.filterMap (remapElem order))).map AnsElem.int)
      | Ans.str _ => q.answer
    { q with choices := permuteChoices q.choices order, answer := newAnswer }

/-- Python `int(x)` on an answer-list element as used by the submit handler;
after normalization every element is an int, on which `int` is the identity.
`none` models the ValueError Python raises on a non-numeric string (no
element of a normalized list answer triggers it). -/
def elemInt : AnsElem → Option Int
  | AnsElem.int n => some n
  | AnsElem.str _ => none

/-- Spec-side definition (for the shuffle-invariance claim): the set of
correct option texts `{choices[i] for i in the correct indices}` of a
question, taking as correct indices the in-range integer content of its
`answer`. -/
def correctTexts (q : Question) : Finset String :=
  match q.answer with
  | Ans.int n =>
      if 0 ≤ n ∧ n < (q.choices.length : Int) then {q.choices.getD n.toNat ""} else ∅
  | Ans.list xs =>
      (((xs.filterMap elemInt).filter fun n =>
          decide (0 ≤ n ∧ n < (q.choices.length : Int))).map
        fun n => q.choices.getD n.toNat "").toFinset
  | Ans.str _ => ∅

/-- Python `(s or "").strip()` on the character list of a string: drop
whitespace from both ends. -/
def pyStrip (l : List Char) : List Char :=
  ((l.dropWhile Char.isWhitespace).reverse.dropWhile Char.isWhitespace).reverse

/-- The submit handler's `norm` (src/app.py line 305):
`(s or "").strip().lower()`, modelled character-wise. -/
def pyNorm (s : String) : String := String.mk ((pyStrip s.data).map Char.toLower)

/-- Map `f` over a list, failing altogether (a Python exception) if `f` fails
on any element. -/
def mapOrNone (f : α → Option β) : List α → Option (List β)
  | [] => some []
  | x :: xs =>
      match f x, mapOrNone f xs with
      | some y, some ys => some (y :: ys)
      | _, _ => none

/-- An answer-list element used as an acceptable free-text string; `none`
models the AttributeError `norm` would raise on a non-string. -/
def elemStr : AnsElem → Option String
  | AnsElem.str s => some s
  | AnsElem.int _ => none

/-- The acceptable-answers list of the free-text branch (src/app.py line 306):
`q["answer"] if isinstance(answer, list) else [q.get("answer", "")]`.
A bare string is wrapped here, at evaluation time; an int answer (bare or in
the list) would crash `norm`, hence `none`. -/
def acceptableOf : Ans → Option (List String)
  | Ans.list xs => mapOrNone elemStr xs
  | Ans.str s => some [s]
  | Ans.int _ => none

/-- Free-text scoring (src/app.py line 307):
`norm(response) in [norm(a) for a in acceptable]`. -/
def freeTextCorrect (acc : List String) (resp : String) : Bool :=
  (acc.map pyNorm).contains (pyNorm resp)

/-- The canonical correct-indices list built by the submit handler
(src/app.py lines 280-289): a lone int gives a one-element list, a list gives
`sorted(set(int(x) for x in answer))`, a string is resolved against `choices`
with fallback to the empty list. -/
def correctIndices (q : Question) : Option (List Int) :=
  match q.answer with
  | Ans.int n => some [n]
  | Ans.list xs => (mapOrNone elemInt xs).map pySortedSet
  | Ans.str s =>
      if s ∈ q.choices then some [((q.choices.indexOf s : Nat) : Int)] else some []

/-- The handler's `is_two_correct` flag (src/app.py lines 244-248): the
(post-normalization) answer is a list of length exactly two. -/
def isTwoCorrect (q : Question) : Bool :=
  match q.answer with
  | Ans.list xs => xs.length == 2
  | _ => false

/-- Resolution of a selected choice text to its index:
`q["choices"].index(v)` (the widgets only offer texts drawn from `choices`). -/
def resolveUser (choices : List String) (v : String) : Int :=
  ((choices.indexOf v : Nat) : Int)

/-- Multi-choice evaluation (src/app.py lines 296-297):
`set(user_indices) == set(correct_indices)`. -/
def multiCorrect (choices : List String) (cis : List Int) (sel : List String) : Bool :=
  decide ((sel.map (resolveUser choices)).toFinset = cis.toFinset)

/-- Single-choice evaluation (src/app.py lines 302-303):
`user_index == correct_indices[0] if correct_indices else False`. -/
def singleCorrect (choices : List String) (cis : List Int) (v : String) : Bool :=
  match cis with
  | [] => false
  | c :: _ => resolveUser choices v == c

/-- A user response as delivered by the input widgets: a multiselect list of
choice texts, a radio selection (absent when nothing is picked), or a
free-text string. -/
inductive Resp where
  | multi : List String → Resp
  | single : Option String → Resp
  | text : String → Resp
deriving DecidableEq

/-- One element of `st.session_state.answers`:
`{"q_index": i, "user": value, "correct": bool}`; a skip stores `user = none`. -/
structure AttemptRecord where
  q_index : Nat
  user : Option Resp
  correct : Bool
deriving DecidableEq

/-- The quiz session kept in `st.session_state`: question list, current
position `i`, score, terminal flag `done`, attempt records, optional
deadline timestamp. -/
structure SessionState where
  qs : List Question
  i : Nat
  score : Nat
  done : Bool
  answers : List AttemptRecord
  deadline : Option Int
deriving DecidableEq

/-- The state update shared by the accepted-submit and skip paths
(src/app.py lines 309-315 and 343-355): append an attempt record, bump the
score if correct, advance `i` by one, and mark the session done when the new
position reaches the question count. -/
def recordStep (st : SessionState) (user : Option Resp) (correct : Bool) : SessionState :=
  let st' : SessionState :=
    { st with
      answers := st.answers ++ [⟨st.i, user, correct⟩],
      score := st.score + (if correct then 1 else 0),
      i := st.i + 1 }
  if st.qs.length ≤ st.i + 1 then { st' with done := true } else st'

/-- The skip handler (src/app.py lines 347-355): records `user = None`,
`correct = False`, without evaluating anything. -/
def skipStep (st : SessionState) : SessionState := recordStep st none false

/-- The render guard for the question widgets and their submit/skip buttons
(src/app.py line 236): `not done and i < n`. -/
def stepGuard (st : SessionState) : Bool :=
  !st.done && decide (st.i < st.qs.length)

/-- The submit handler (src/app.py lines 275-345) for the current question.
`none` covers every run that appends no record and leaves the session
unchanged: the shape rejections via `st.stop()` (multiselect count ≠ 2,
radio with nothing selected), a response shape the rendered widget cannot
produce, and an exception while building `correct_indices` or the
acceptable-answers list. -/
def submitHandler (st : SessionState) (resp : Resp) : Option SessionState :=
  if stepGuard st then
    match st.qs[st.i]? with
    | none => none
    | some q =>
      if q.choices.isEmpty then
        match resp with
        | Resp.text t =>
            match acceptableOf q.answer with
            | none => none
            | some acc => some (recordStep st (some resp) (freeTextCorrect acc t))
        | _ => none
      else
        match correctIndices q with
        | none => none
        | some cis =>
          if isTwoCorrect q then
            match resp with
            | Resp.multi sel =>
                if sel.length == 2 then
                  some (recordStep st (some resp) (multiCorrect q.choices cis sel))
                else none
            | _ => none
          else
            match resp with
            | Resp.single (some v) =>
                some (recordStep st (some resp) (singleCorrect q.choices cis v))
            | _ => none
  else none

/-- A fresh session as set up by `init_quiz` (src/app.py lines 195-201). -/
def initSession (qs : List Question) (deadline : Option Int) : SessionState :=
  { qs := qs, i := 0, score := 0, done := false, answers := [], deadline := deadline }

/-- Run a sequence of record steps (accepted submits or skips, each given by
the stored user value and computed correctness); a step only fires when the
render guard lets the buttons appear. -/
def runSteps (st : SessionState) : List (Option Resp × Bool) → SessionState
  | [] => st
  | uc :: rest => runSteps (if stepGuard st then recordStep st uc.1 uc.2 else st) rest

/-- The lazy timer check at render time (src/app.py lines 232-234):
when a deadline is set and `time.time()` has reached it, `end_quiz()` sets
the terminal flag; nothing else changes. -/
def timerCheck (st : SessionState) (now : Int) : SessionState :=
  match st.deadline with
  | none => st
  | some d => if d ≤ now then { st with done := true } else st

/-! ## Helper lemmas -/

theorem mem_pySortedSet {l : List Int} {x : Int} : x ∈ pySortedSet l ↔ x ∈ l := by
  unfold pySortedSet
  rw [(List.perm_insertionSort _ l.dedup).mem_iff, List.mem_dedup]

theorem sorted_pySortedSet (l : List Int) : List.Sorted (· ≤ ·) (pySortedSet l) :=
  List.sorted_insertionSort _ l.dedup

theorem nodup_pySortedSet (l : List Int) : (pySortedSet l).Nodup :=
  (List.perm_insertionSort _ l.dedup).nodup_iff.mpr (List.nodup_dedup l)

theorem pySortedSet_eq_nil_iff {l : List Int} : pySortedSet l = [] ↔ l = [] := by
  constructor
  · intro h
    cases l with
    | nil => rfl
    | cons x xs =>
        have hx : x ∈ pySortedSet (x :: xs) := mem_pySortedSet.mpr (by simp)
        rw [h] at hx
        cases hx
  · intro h
    subst h
    rfl

theorem mapOrNone_elemInt_map (l : List Int) :
    mapOrNone elemInt (l.map AnsElem.int) = some l := by
  induction l with
  | nil => rfl
  | cons x xs ih => simp [mapOrNone, elemInt, ih]

theorem filterMap_elemInt_map (l : List Int) :
    (l.map AnsElem.int).filterMap elemInt = l := by
  induction l with
  | nil => rfl
  | cons x xs ih => simp [elemInt, ih]

theorem resolveUser_nonneg (choices : List String) (v : String) :
    0 ≤ resolveUser choices v :=
  Int.natCast_nonneg _

theorem resolveUser_lt {choices : List String} {v : String} (hv : v ∈ choices) :
    resolveUser choices v < (choices.length : Int) := by
  unfold resolveUser
  exact_mod_cast List.indexOf_lt_length.mpr hv

theorem resolveElem_range {ch : List String} {a : AnsElem} {n : Int}
    (h : resolveElem ch a = some n) : 0 ≤ n ∧ n < (ch.length : Int) := by
  cases a with
  | int m =>
      by_cases hc : 0 ≤ m ∧ m < (ch.length : Int)
      · simp only [resolveElem, if_pos hc, Option.some.injEq] at h
        exact h ▸ hc
      · exact Option.noConfusion (by simpa only [resolveElem, if_neg hc] using h)
  | str s =>
      by_cases hs : s ∈ ch
      · simp only [resolveElem, if_pos hs, Option.some.injEq] at h
        refine h ▸ ⟨Int.natCast_nonneg _, ?_⟩
        exact_mod_cast List.indexOf_lt_length.mpr hs
      · exact Option.noConfusion (by simpa only [resolveElem, if_neg hs] using h)

theorem permuteChoices_length (ch : List String) (order : List Nat) :
    (permuteChoices ch order).length = order.length := by
  simp [permuteChoices]

theorem permuteChoices_getD (ch : List String) (order : List Nat) (k : Nat)
    (hk : k < order.length) :
    (permuteChoices ch order).getD k "" = ch.getD (order.getD k 0) "" := by
  unfold permuteChoices
  rw [List.getD_eq_getElem _ _ (by simpa using hk), List.getElem_map,
    List.getD_eq_getElem _ _ hk]

theorem remap_text {ch : List String} {order : List Nat}
    (hperm : order.Perm (List.range ch.length)) {k : Nat} (hk : k < ch.length) :
    (permuteChoices ch order).getD (order.indexOf k) "" = ch.getD k "" := by
  have hmem : k ∈ order := hperm.mem_iff.mpr (List.mem_range.mpr hk)
  have hidx : order.indexOf k < order.length := List.indexOf_lt_length.mpr hmem
  rw [permuteChoices_getD ch order _ hidx]
  congr 1
  rw [List.getD_eq_getElem _ _ hidx]
  exact List.getElem_indexOf hidx

/-! ## Unfolding lemmas for the per-question operations -/

theorem normalizeQ_empty (p : String) (ch : List String) (a : Ans) (ex : Option String)
    (hch : ch.isEmpty = true) :
    normalizeQ ⟨p, ch, a, ex⟩ = ⟨p, ch, a, ex⟩ := by
  unfold normalizeQ
  rw [if_pos hch]

theorem normalizeQ_int (p : String) (ch : List String) (n : Int) (ex : Option String)
    (hch : ch.isEmpty = false) :
    normalizeQ ⟨p, ch, Ans.int n, ex⟩ = ⟨p, ch, Ans.int n, ex⟩ := by
  unfold normalizeQ
  rw [if_neg (by simp [hch])]

theorem normalizeQ_str_mem (p : String) (ch : List String) (s : String) (ex : Option String)
    (hch : ch.isEmpty = false) (hs : s ∈ ch) :
    normalizeQ ⟨p, ch, Ans.str s, ex⟩ =
      ⟨p, ch, Ans.int ((ch.indexOf s : Nat) : Int), ex⟩ := by
  unfold normalizeQ
  rw [if_neg (by simp [hch])]
  exact if_pos hs

theorem normalizeQ_str_notMem (p : String) (ch : List String) (s : String) (ex : Option String)
    (hch : ch.isEmpty = false) (hs : s ∉ ch) :
    normalizeQ ⟨p, ch, Ans.str s, ex⟩ = ⟨p, ch, Ans.str s, ex⟩ := by
  unfold normalizeQ
  rw [if_neg (by simp [hch])]
  exact if_neg hs

theorem normalizeQ_list (p : String) (ch : List String) (as : List AnsElem)
    (ex : Option String) (hch : ch.isEmpty = false) :
    normalizeQ ⟨p, ch, Ans.list as, ex⟩ =
      ⟨p, ch, Ans.list ((pySortedSet (as.filterMap (resolveElem ch))).map AnsElem.int), ex⟩ := by
  unfold normalizeQ
  rw [if_neg (by simp [hch])]

theorem shuffleQ_empty (p : String) (ch : List String) (a : Ans) (ex : Option String)
    (order : List Nat) (hch : ch.isEmpty = true) :
    shuffleQ ⟨p, ch, a, ex⟩ order = ⟨p, ch, a, ex⟩ := by
  unfold shuffleQ
  rw [if_pos hch]

theorem shuffleQ_int_in (p : String) (ch : List String) (n : Int) (ex : Option String)
    (order : List Nat) (hch : ch.isEmpty = false)
    (hcond : 0 ≤ n ∧ n < (order.length : Int)) :
    shuffleQ ⟨p, ch, Ans.int n, ex⟩ order =
      ⟨p, permuteChoices ch order, Ans.int ((order.indexOf n.toNat : Nat) : Int), ex⟩ := by
  unfold shuffleQ
  rw [if_neg (by simp [hch])]
  simp only [if_pos hcond]

theorem shuffleQ_int_out (p : String) (ch : List String) (n : Int) (ex : Option String)
    (order : List Nat) (hch : ch.isEmpty = false)
    (hcond : ¬(0 ≤ n ∧ n < (order.length : Int))) :
    shuffleQ ⟨p, ch, Ans.int n, ex⟩ order =
      ⟨p, permuteChoices ch order, Ans.int n, ex⟩ := by
  unfold shuffleQ
  rw [if_neg (by simp [hch])]
  simp only [if_neg hcond]

theorem shuffleQ_list (p : String) (ch : List String) (cs : List AnsElem)
    (ex : Option String) (order : List Nat) (hch : ch.isEmpty = false) :
    shuffleQ ⟨p, ch, Ans.list cs, ex⟩ order =
      ⟨p, permuteChoices ch order,
        Ans.list ((pySortedSet (cs.filterMap (remapElem order))).map AnsElem.int), ex⟩ := by
  unfold shuffleQ
  rw [if_neg (by simp [hch])]

theorem correctTexts_int_in (p : String) (ch : List String) (n : Int) (ex : Option String)
    (h : 0 ≤ n ∧ n < (ch.length : Int)) :
    correctTexts ⟨p, ch, Ans.int n, ex⟩ = {ch.getD n.toNat ""} := by
  unfold correctTexts
  exact if_pos h

theorem correctTexts_list (p : String) (ch : List String) (xs : List AnsElem)
    (ex : Option String) :
    correctTexts ⟨p, ch, Ans.list xs, ex⟩ =
      (((xs.filterMap elemInt).filter fun n =>
          decide (0 ≤ n ∧ n < (ch.length : Int))).map fun n => ch.getD n.toNat "").toFinset := by
  rfl

/-! ## C1 — MCQ answer shape after normalization -/

/-- C1 counterexample: the question with choices `["a", "b"]` and the
out-of-range integer answer `5` passes through `normalizeQ` unchanged, so
after normalization its answer is a single integer that is NOT in
`[0, len(choices))` — refuting the claim that the normalized answer of an
MCQ is always an in-range index or a sequence of in-range indices. -/
theorem normalize_out_of_range_cex :
    (normalizeQ ⟨"p", ["a", "b"], Ans.int 5, none⟩).answer = Ans.int 5 ∧
      ¬((5 : Int) < ((2 : Nat) : Int)) :=
  ⟨by rw [normalizeQ_int "p" ["a", "b"] 5 none rfl], by decide⟩

/-- C1 (amended): after `normalizeQ`, an MCQ keeps its choices; a list answer
becomes a sorted, duplicate-free list of in-range integer indices; a string
answer matching a choice becomes that (in-range) index; an integer answer —
in range or not — and a string matching no choice are left unchanged. -/
theorem normalize_mcq_answer_shape (p : String) (ch : List String) (a : Ans)
    (ex : Option String) (hch : ch.isEmpty = false) :
    (normalizeQ ⟨p, ch, a, ex⟩).choices = ch ∧
    (∀ as, a = Ans.list as →
      ∃ l : List Int, (normalizeQ ⟨p, ch, a, ex⟩).answer = Ans.list (l.map AnsElem.int) ∧
        List.Sorted (· ≤ ·) l ∧ l.Nodup ∧
        ∀ n ∈ l, 0 ≤ n ∧ n < (ch.length : Int)) ∧
    (∀ s, a = Ans.str s → s ∈ ch →
      (normalizeQ ⟨p, ch, a, ex⟩).answer = Ans.int ((ch.indexOf s : Nat) : Int) ∧
        ((ch.indexOf s : Nat) : Int) < (ch.length : Int)) ∧
    (∀ s, a = Ans.str s → s ∉ ch → (normalizeQ ⟨p, ch, a, ex⟩).answer = Ans.str s) ∧
    (∀ n, a = Ans.int n → (normalizeQ ⟨p, ch, a, ex⟩).answer = Ans.int n) := by
  refine ⟨?_, ?_, ?_, ?_, ?_⟩
  · cases a with
    | int n => rw [normalizeQ_int _ _ _ _ hch]
    | list as => rw [normalizeQ_list _ _ _ _ hch]
    | str s =>
        by_cases hs : s ∈ ch
        · rw [normalizeQ_str_mem _ _ _ _ hch hs]
        · rw [normalizeQ_str_notMem _ _ _ _ hch hs]
  · intro as hans
    subst hans
    rw [normalizeQ_list _ _ _ _ hch]
    refine ⟨pySortedSet (as.filterMap (resolveElem ch)), rfl,
      sorted_pySortedSet _, nodup_pySortedSet _, ?_⟩
    intro n hn
    obtain ⟨e, _, he⟩ := List.mem_filterMap.mp (mem_pySortedSet.mp hn)
    exact resolveElem_range he
  · intro s hans hs
    subst hans
    rw [normalizeQ_str_mem _ _ _ _ hch hs]
    exact ⟨rfl, by exact_mod_cast List.indexOf_lt_length.mpr hs⟩
  · intro s hans hs
    subst hans
    rw [normalizeQ_str_notMem _ _ _ _ hch hs]
  · intro n hans
    subst hans
    rw [normalizeQ_int _ _ _ _ hch]

/-- C1 amended witness at a concrete MCQ: choices `["a", "b"]`, raw list
answer `[1, "a", 7]`. -/
theorem normalize_mcq_answer_shape_witness :
    (normalizeQ ⟨"p", ["a", "b"], Ans.list [AnsElem.int 1, AnsElem.str "a", AnsElem.int 7],
        none⟩).choices = ["a", "b"] :=
  (normalize_mcq_answer_shape "p" ["a", "b"]
    (Ans.list [AnsElem.int 1, AnsElem.str "a", AnsElem.int 7]) none rfl).1

/-! ## C2 — questions without choices under normalization -/

/-- C2 counterexample: a free-text question (empty choices) with the bare
string answer `"Paris"` is returned by `normalizeQ` completely unchanged —
its answer is still the bare string, not a one-element sequence, refuting the
claim that normalization coerces a free-text answer into a sequence. -/
theorem normalize_free_text_cex :
    normalizeQ ⟨"p", [], Ans.str "Paris", none⟩ = ⟨"p", [], Ans.str "Paris", none⟩ ∧
    (normalizeQ ⟨"p", [], Ans.str "Paris", none⟩).answer = Ans.str "Paris" :=
  ⟨normalizeQ_empty "p" [] (Ans.str "Paris") none rfl,
    by rw [normalizeQ_empty "p" [] (Ans.str "Paris") none rfl]⟩

/-- C2 (amended): normalization leaves a question with absent/empty choices
entirely unchanged; the coercion of a bare string answer into the one-element
sequence of acceptable strings happens at evaluation time, in the free-text
branch of the submit handler. -/
theorem normalize_free_text_unchanged (q : Question) (hch : q.choices = []) :
    normalizeQ q = q ∧
    (∀ s, q.answer = Ans.str s → acceptableOf q.answer = some [s]) := by
  obtain ⟨p, ch, a, ex⟩ := q
  dsimp only at hch
  subst hch
  refine ⟨normalizeQ_empty _ _ _ _ rfl, ?_⟩
  intro s hans
  dsimp only at hans ⊢
  rw [hans]
  rfl

/-- C2 amended witness at a concrete free-text question. -/
theorem normalize_free_text_unchanged_witness :
    normalizeQ ⟨"p", [], Ans.str "Paris", none⟩ = ⟨"p", [], Ans.str "Paris", none⟩ ∧
    acceptableOf (Ans.str "Paris") = some ["Paris"] := by
  have h := normalize_free_text_unchanged ⟨"p", [], Ans.str "Paris", none⟩ rfl
  exact ⟨h.1, h.2 "Paris" rfl⟩

/-! ## C5 — free-text scoring -/

/-- C5 counterexample: a free-text question whose acceptable answer is the
whitespace string `" "` scores the EMPTY response as correct (both normalize
to `""`), refuting the claim that an empty or absent response is never scored
correct. -/
theorem free_text_empty_response_cex :
    (Question.mk "p" [] (Ans.str " ") none).choices = [] ∧
    acceptableOf (Ans.str " ") = some [" "] ∧
    freeTextCorrect [" "] "" = true :=
  ⟨rfl, rfl, by decide⟩

/-- C5 (amended): a free-text response is scored correct iff the response,
lower-cased and trimmed of surrounding whitespace, equals some lower-cased and
trimmed acceptable answer; an empty response is never scored correct provided
every acceptable answer is nonempty after trimming (an acceptable answer that
normalizes to the empty string makes the empty response correct). -/
theorem free_text_eval_spec (q : Question) (acc : List String)
    (hch : q.choices = []) (hacc : acceptableOf q.answer = some acc) (resp : String) :
    (freeTextCorrect acc resp = true ↔ pyNorm resp ∈ acc.map pyNorm) ∧
    ((∀ a ∈ acc, pyNorm a ≠ "") → freeTextCorrect acc "" = false) := by
  constructor
  · simp [freeTextCorrect]
  · intro hne
    have h0 : pyNorm "" = "" := rfl
    have hnotMem : pyNorm "" ∉ acc.map pyNorm := by
      rw [h0]
      intro hmem
      obtain ⟨a, ha, hEq⟩ := List.mem_map.mp hmem
      exact hne a ha hEq
    simpa [freeTextCorrect] using hnotMem

/-- C5 amended witness: with acceptable answer `"Paris"`, the response
`"  PARIS "` is correct, and the empty response is not. -/
theorem free_text_eval_spec_witness :
    freeTextCorrect ["Paris"] "  PARIS " = true ∧
    freeTextCorrect ["Paris"] "" = false := by
  have h := free_text_eval_spec ⟨"p", [], Ans.str "Paris", none⟩ ["Paris"] rfl rfl "  PARIS "
  exact ⟨h.1.mpr (by decide), h.2 (by decide)⟩

/-! ## C4 — multi-choice scoring is exact set equality -/

/-- C4: for an MCQ whose answer is a sequence of indices, the multi-choice
evaluation `set(user_indices) == set(correct_indices)` returns true iff the
set of indices resolved from the response equals the set of correct indices
exactly; in particular every strict subset and every strict superset of the
correct set scores false (no partial credit). -/
theorem multi_choice_exact_set (q : Question) (xs : List AnsElem) (cis : List Int)
    (hans : q.answer = Ans.list xs) (hcis : correctIndices q = some cis)
    (sel : List String) (hsel : ∀ v ∈ sel, v ∈ q.choices) :
    (multiCorrect q.choices cis sel = true ↔
      (sel.map (resolveUser q.choices)).toFinset = cis.toFinset) ∧
    ((sel.map (resolveUser q.choices)).toFinset ⊂ cis.toFinset →
      multiCorrect q.choices cis sel = false) ∧
    (cis.toFinset ⊂ (sel.map (resolveUser q.choices)).toFinset →
      multiCorrect q.choices cis sel = false) := by
  refine ⟨by simp [multiCorrect], ?_, ?_⟩
  · intro hss
    simp [multiCorrect, hss.ne]
  · intro hss
    simp [multiCorrect, hss.ne']

/-- C4 witness: with choices `["A", "B", "C", "D"]` and correct indices
`[0, 2]`, the response `{"A", "C"}` scores true and the strict subset
`{"A"}` scores false. -/
theorem multi_choice_exact_set_witness :
    multiCorrect ["A", "B", "C", "D"] [0, 2] ["A", "C"] = true ∧
    multiCorrect ["A", "B", "C", "D"] [0, 2] ["A"] = false := by
  have h := multi_choice_exact_set
    ⟨"p", ["A", "B", "C", "D"], Ans.list [AnsElem.int 0, AnsElem.int 2], none⟩
    [AnsElem.int 0, AnsElem.int 2] [0, 2] rfl (by decide) ["A", "C"] (by decide)
  have h2 := multi_choice_exact_set
    ⟨"p", ["A", "B", "C", "D"], Ans.list [AnsElem.int 0, AnsElem.int 2], none⟩
    [AnsElem.int 0, AnsElem.int 2] [0, 2] rfl (by decide) ["A"] (by decide)
  exact ⟨h.1.mpr (by decide), h2.2.1 (by decide)⟩

/-! ## C6 — single-choice scoring -/

/-- C6: for a single-choice question (choices present, answer a lone integer),
`correct_indices` is the one-element list of that integer, a response is
scored correct iff its resolved index equals it, and when that integer is not
an in-range index (the fail-open rule left it unresolved), every possible
response scores false. -/
theorem single_choice_eval_spec (p : String) (ch : List String) (n : Int)
    (ex : Option String) (hch : ch.isEmpty = false) (v : String) (hv : v ∈ ch) :
    correctIndices ⟨p, ch, Ans.int n, ex⟩ = some [n] ∧
    (singleCorrect ch [n] v = true ↔ resolveUser ch v = n) ∧
    (¬(0 ≤ n ∧ n < (ch.length : Int)) → singleCorrect ch [n] v = false) := by
  refine ⟨rfl, by simp [singleCorrect], ?_⟩
  intro hcond
  have h1 : (0 : Int) ≤ resolveUser ch v := resolveUser_nonneg ch v
  have h2 : resolveUser ch v < (ch.length : Int) := resolveUser_lt hv
  have hne : resolveUser ch v ≠ n := fun hEq => hcond ⟨hEq ▸ h1, hEq ▸ h2⟩
  simp [singleCorrect, hne]

/-- C6 witness: with choices `["a", "b"]`, answer index `1` is matched by the
response `"b"`, and the unresolvable answer `5` scores every response false. -/
theorem single_choice_eval_spec_witness :
    singleCorrect ["a", "b"] [1] "b" = true ∧
    singleCorrect ["a", "b"] [5] "a" = false := by
  have h1 := single_choice_eval_spec "p" ["a", "b"] 1 none rfl "b" (by decide)
  have h2 := single_choice_eval_spec "p" ["a", "b"] 5 none rfl "a" (by decide)
  exact ⟨h1.2.1.mpr (by decide), h2.2.2 (by decide)⟩

/-! ## C10 — list answers of length ≠ 2 are evaluated single-choice -/

/-- C10: an MCQ whose (normalized) answer is a list of indices of length
different from two is not flagged `is_two_correct`, so it is presented and
evaluated via the single-choice branch: its canonical correct indices are the
sorted set of the list, and a response scores correct iff its resolved index
equals the smallest index in the list (an empty list scores every response
false). -/
theorem list_answer_not_two_single_eval (p : String) (ch : List String) (l : List Int)
    (ex : Option String) (hch : ch.isEmpty = false) (hlen : l.length ≠ 2) :
    isTwoCorrect ⟨p, ch, Ans.list (l.map AnsElem.int), ex⟩ = false ∧
    correctIndices ⟨p, ch, Ans.list (l.map AnsElem.int), ex⟩ = some (pySortedSet l) ∧
    (l = [] → ∀ v, singleCorrect ch (pySortedSet l) v = false) ∧
    (l ≠ [] → ∃ m, m ∈ l ∧ (∀ x ∈ l, m ≤ x) ∧
      ∀ v, (singleCorrect ch (pySortedSet l) v = true ↔ resolveUser ch v = m)) := by
  refine ⟨?_, ?_, ?_, ?_⟩
  · simp [isTwoCorrect, hlen]
  · simp [correctIndices, mapOrNone_elemInt_map]
  · intro hl
    subst hl
    intro v
    rfl
  · intro hl
    have hps : pySortedSet l ≠ [] := fun h => hl (pySortedSet_eq_nil_iff.mp h)
    cases hsp : pySortedSet l with
    | nil => exact absurd hsp hps
    | cons m rest =>
        refine ⟨m, ?_, ?_, ?_⟩
        · exact mem_pySortedSet.mp (hsp ▸ List.mem_cons_self m rest)
        · intro x hx
          have hx' : x ∈ pySortedSet l := mem_pySortedSet.mpr hx
          rw [hsp] at hx'
          rcases List.mem_cons.mp hx' with h | h
          · exact le_of_eq h.symm
          · have hsorted := sorted_pySortedSet l
            rw [hsp] at hsorted
            exact List.rel_of_sorted_cons hsorted x h
        · intro v
          simp [singleCorrect]

/-- C10 witness: the three-element answer list `[2, 0, 1]` over
`["a", "b", "c"]` is not two-correct and its canonical indices are the
sorted set `[0, 1, 2]`; its smallest index `0` is matched by response `"a"`. -/
theorem list_answer_not_two_single_eval_witness :
    isTwoCorrect ⟨"p", ["a", "b", "c"],
      Ans.list [AnsElem.int 2, AnsElem.int 0, AnsElem.int 1], none⟩ = false ∧
    singleCorrect ["a", "b", "c"] (pySortedSet [2, 0, 1]) "a" = true := by
  have h := list_answer_not_two_single_eval "p" ["a", "b", "c"] [2, 0, 1] none rfl (by decide)
  obtain ⟨m, hm, hmin, hiff⟩ := h.2.2.2 (by decide)
  have hm0 : m = 0 := le_antisymm (by simpa using hmin 0 (by decide)) (by
    rcases (by decide : (0:Int) ≤ 2 ∧ (0:Int) ≤ 0 ∧ (0:Int) ≤ 1) with ⟨a, b, c⟩
    rcases List.mem_cons.mp hm with h | h
    · exact h ▸ a
    rcases List.mem_cons.mp h with h | h
    · exact h ▸ b
    rcases List.mem_cons.mp h with h | h
    · exact h ▸ c
    · cases h)
  exact ⟨h.1, (hiff "a").mpr (by rw [hm0]; decide)⟩

/-! ## Session-step helper lemmas -/

theorem recordStep_qs (st : SessionState) (u : Option Resp) (c : Bool) :
    (recordStep st u c).qs = st.qs := by
  by_cases h : st.qs.length ≤ st.i + 1 <;> simp [recordStep, h]

theorem recordStep_i (st : SessionState) (u : Option Resp) (c : Bool) :
    (recordStep st u c).i = st.i + 1 := by
  by_cases h : st.qs.length ≤ st.i + 1 <;> simp [recordStep, h]

theorem recordStep_answers (st : SessionState) (u : Option Resp) (c : Bool) :
    (recordStep st u c).answers = st.answers ++ [⟨st.i, u, c⟩] := by
  by_cases h : st.qs.length ≤ st.i + 1 <;> simp [recordStep, h]

theorem recordStep_score (st : SessionState) (u : Option Resp) (c : Bool) :
    (recordStep st u c).score = st.score + (if c then 1 else 0) := by
  by_cases h : st.qs.length ≤ st.i + 1 <;> simp [recordStep, h]

theorem recordStep_done (st : SessionState) (u : Option Resp) (c : Bool) :
    (recordStep st u c).done = if st.qs.length ≤ st.i + 1 then true else st.done := by
  by_cases h : st.qs.length ≤ st.i + 1 <;> simp [recordStep, h]

theorem stepGuard_iff (st : SessionState) :
    stepGuard st = true ↔ st.done = false ∧ st.i < st.qs.length := by
  simp [stepGuard]

theorem runSteps_inv (n : Nat) (st : SessionState)
    (h : st.qs.length = n ∧ st.i ≤ n ∧ st.done = decide (st.i = n))
    (steps : List (Option Resp × Bool)) :
    (runSteps st steps).qs.length = n ∧ (runSteps st steps).i ≤ n ∧
      (runSteps st steps).done = decide ((runSteps st steps).i = n) := by
  induction steps generalizing st with
  | nil => exact h
  | cons uc rest ih =>
      show (runSteps (if stepGuard st then recordStep st uc.1 uc.2 else st) rest).qs.length = n ∧ _
      apply ih
      by_cases hg : stepGuard st = true
      · rw [if_pos hg]
        obtain ⟨hq, hi, hd⟩ := h
        obtain ⟨hdone, hlt⟩ := (stepGuard_iff st).mp hg
        rw [hq] at hlt
        refine ⟨by rw [recordStep_qs, hq], by rw [recordStep_i]; omega, ?_⟩
        rw [recordStep_done, recordStep_i, hq, hdone]
        by_cases hle : n ≤ st.i + 1
        · rw [if_pos hle]
          have heq : st.i + 1 = n := by omega
          simp [heq]
        · rw [if_neg hle]
          have hne : ¬(st.i + 1 = n) := by omega
          simp [hne]
      · rw [if_neg hg]
        exact h

/-! ## C7 — position/terminal invariant of record steps -/

/-- C7: starting from a freshly initialized session over a non-empty question
list, after any sequence of guarded record steps (accepted submits or skips)
the position never exceeds the question count and the terminal flag holds
exactly when the position equals the count; moreover any further record step
fired under the render guard advances the position by exactly one and sets
the terminal flag exactly when the new position reaches the count — so the
session becomes Finished exactly once, on the step that makes the position
equal the question count. -/
theorem record_answer_session_invariant (qs : List Question) (hq : qs ≠ [])
    (d : Option Int) (steps : List (Option Resp × Bool)) (k : Nat)
    (u : Option Resp) (c : Bool) :
    ((runSteps (initSession qs d) (steps.take k)).i ≤ qs.length ∧
      (runSteps (initSession qs d) (steps.take k)).done =
        decide ((runSteps (initSession qs d) (steps.take k)).i = qs.length)) ∧
    (stepGuard (runSteps (initSession qs d) (steps.take k)) = true →
      (recordStep (runSteps (initSession qs d) (steps.take k)) u c).i =
          (runSteps (initSession qs d) (steps.take k)).i + 1 ∧
      (recordStep (runSteps (initSession qs d) (steps.take k)) u c).done =
        decide ((runSteps (initSession qs d) (steps.take k)).i + 1 = qs.length)) := by
  have hn : qs.length ≠ 0 := fun h0 => hq (List.length_eq_zero.mp h0)
  have hinv := runSteps_inv qs.length (initSession qs d)
    ⟨rfl, Nat.zero_le _, by simp [initSession]; omega⟩ (steps.take k)
  refine ⟨⟨hinv.2.1, hinv.2.2⟩, ?_⟩
  intro hg
  obtain ⟨hdone, hlt⟩ := (stepGuard_iff _).mp hg
  rw [hinv.1] at hlt
  refine ⟨recordStep_i _ _ _, ?_⟩
  rw [recordStep_done, hinv.1, hdone]
  by_cases hle : qs.length ≤ (runSteps (initSession qs d) (steps.take k)).i + 1
  · rw [if_pos hle]
    have heq : (runSteps (initSession qs d) (steps.take k)).i + 1 = qs.length := by omega
    simp [heq]
  · rw [if_neg hle]
    have hne : ¬((runSteps (initSession qs d) (steps.take k)).i + 1 = qs.length) := by omega
    simp [hne]

/-- C7 witness: a fresh one-question session satisfies the invariant. -/
theorem record_answer_session_invariant_witness :
    (runSteps (initSession [⟨"q", ["a"], Ans.int 0, none⟩] none) []).i ≤ 1 ∧
    (runSteps (initSession [⟨"q", ["a"], Ans.int 0, none⟩] none) []).done =
      decide ((runSteps (initSession [⟨"q", ["a"], Ans.int 0, none⟩] none) []).i = 1) :=
  (record_answer_session_invariant [⟨"q", ["a"], Ans.int 0, none⟩] (by decide)
    none [] 0 none false).1

/-! ## C8 — invalid response shapes are rejected before evaluation -/

/-- C8: under the render guard, a multi-choice submission whose selection
count differs from two (the number of correct answers of a two-correct MCQ)
and a single-choice submission with nothing selected are both rejected by
`st.stop()` before evaluation: the handler returns `none`, meaning no
AttemptRecord is appended and score and position are unchanged. -/
theorem invalid_shape_rejected (st : SessionState) (q : Question) (cis : List Int)
    (hg : stepGuard st = true) (hq : st.qs[st.i]? = some q)
    (hch : q.choices.isEmpty = false) (hcis : correctIndices q = some cis) :
    (∀ sel, isTwoCorrect q = true → sel.length ≠ 2 →
      submitHandler st (Resp.multi sel) = none) ∧
    (isTwoCorrect q = false → submitHandler st (Resp.single none) = none) := by
  constructor
  · intro sel h2 hlen
    simp [submitHandler, hg, hq, hch, hcis, h2, hlen]
  · intro h2
    simp [submitHandler, hg, hq, hch, hcis, h2]

/-- C8 witness: a one-selection submission on a two-correct MCQ and an empty
radio submission on a single-choice question are both rejected. -/
theorem invalid_shape_rejected_witness :
    submitHandler
      (initSession [⟨"p", ["a", "b", "c"], Ans.list [AnsElem.int 0, AnsElem.int 1], none⟩] none)
      (Resp.multi ["a"]) = none ∧
    submitHandler (initSession [⟨"p", ["a", "b"], Ans.int 0, none⟩] none)
      (Resp.single none) = none := by
  have h1 := invalid_shape_rejected
    (initSession [⟨"p", ["a", "b", "c"], Ans.list [AnsElem.int 0, AnsElem.int 1], none⟩] none)
    ⟨"p", ["a", "b", "c"], Ans.list [AnsElem.int 0, AnsElem.int 1], none⟩ [0, 1]
    (by decide) (by decide) rfl (by decide)
  have h2 := invalid_shape_rejected
    (initSession [⟨"p", ["a", "b"], Ans.int 0, none⟩] none)
    ⟨"p", ["a", "b"], Ans.int 0, none⟩ [0]
    (by decide) (by decide) rfl (by decide)
  exact ⟨h1.1 ["a"] (by decide) (by decide), h2.2 (by decide)⟩

/-! ## C9 — deadline forces the session to finish -/

/-- C9: once the deadline time is reached, the lazy timer check marks an
in-progress session finished — regardless of how many questions remain (no
hypothesis on the position) — and appends no AttemptRecord and changes
neither position nor score. -/
theorem deadline_forces_finish (st : SessionState) (d now : Int)
    (hd : st.deadline = some d) (hnow : d ≤ now) :
    (timerCheck st now).done = true ∧
    (timerCheck st now).answers = st.answers ∧
    (timerCheck st now).i = st.i ∧
    (timerCheck st now).score = st.score := by
  simp only [timerCheck, hd]
  rw [if_pos hnow]
  exact ⟨rfl, rfl, rfl, rfl⟩

/-- C9 witness: a session with one unanswered question and a deadline of 10
is finished by the timer check at time 10 with nothing recorded. -/
theorem deadline_forces_finish_witness :
    (timerCheck ⟨[⟨"p", ["a", "b"], Ans.int 0, none⟩], 0, 0, false, [], some 10⟩ 10).done = true ∧
    (timerCheck ⟨[⟨"p", ["a", "b"], Ans.int 0, none⟩], 0, 0, false, [], some 10⟩ 10).answers = [] ∧
    (timerCheck ⟨[⟨"p", ["a", "b"], Ans.int 0, none⟩], 0, 0, false, [], some 10⟩ 10).i = 0 ∧
    (timerCheck ⟨[⟨"p", ["a", "b"], Ans.int 0, none⟩], 0, 0, false, [], some 10⟩ 10).score = 0 :=
  deadline_forces_finish ⟨[⟨"p", ["a", "b"], Ans.int 0, none⟩], 0, 0, false, [], some 10⟩
    10 10 rfl (by decide)

/-! ## C3 — shuffling preserves the set of correct option texts -/

theorem pySortedSet_toFinset (l : List Int) : (pySortedSet l).toFinset = l.toFinset := by
  ext x
  simp [List.mem_toFinset, mem_pySortedSet]

theorem filterMap_remapElem_map (l : List Int) (order : List Nat)
    (h : ∀ m ∈ l, 0 ≤ m ∧ m < (order.length : Int)) :
    (l.map AnsElem.int).filterMap (remapElem order) =
      l.map fun m => ((order.indexOf m.toNat : Nat) : Int) := by
  induction l with
  | nil => rfl
  | cons x xs ih =>
      have hx := h x (List.mem_cons_self x xs)
      simp only [List.map_cons, List.filterMap_cons]
      rw [show remapElem order (AnsElem.int x) =
            some ((order.indexOf x.toNat : Nat) : Int) by simp [remapElem, hx]]
      rw [ih fun m hm => h m (List.mem_cons_of_mem x hm)]

theorem correctTexts_shuffle_int (p : String) (ch : List String) (n : Int)
    (ex : Option String) (order : List Nat)
    (hperm : order.Perm (List.range ch.length))
    (hch : ch.isEmpty = false) (h0 : 0 ≤ n) (hlt : n < (ch.length : Int)) :
    correctTexts (shuffleQ ⟨p, ch, Ans.int n, ex⟩ order) =
      correctTexts ⟨p, ch, Ans.int n, ex⟩ := by
  have hlen : order.length = ch.length := by
    rw [hperm.length_eq, List.length_range]
  have hcond : 0 ≤ n ∧ n < (order.length : Int) := ⟨h0, by rw [hlen]; exact hlt⟩
  rw [shuffleQ_int_in p ch n ex order hch hcond]
  have hnlt : n.toNat < ch.length := by omega
  have hmem : n.toNat ∈ order := hperm.mem_iff.mpr (List.mem_range.mpr hnlt)
  have hidx : order.indexOf n.toNat < order.length := List.indexOf_lt_length.mpr hmem
  have hcond2 : 0 ≤ ((order.indexOf n.toNat : Nat) : Int) ∧
      ((order.indexOf n.toNat : Nat) : Int) < ((permuteChoices ch order).length : Int) := by
    refine ⟨Int.natCast_nonneg _, ?_⟩
    rw [permuteChoices_length]
    exact_mod_cast hidx
  rw [correctTexts_int_in _ _ _ _ hcond2, correctTexts_int_in _ _ _ _ ⟨h0, hlt⟩]
  congr 1
  rw [Int.toNat_natCast]
  exact remap_text hperm hnlt

theorem correctTexts_shuffle_list (p : String) (ch : List String) (l : List Int)
    (ex : Option String) (order : List Nat)
    (hperm : order.Perm (List.range ch.length))
    (hch : ch.isEmpty = false)
    (hl : ∀ m ∈ l, 0 ≤ m ∧ m < (ch.length : Int)) :
    correctTexts (shuffleQ ⟨p, ch, Ans.list (l.map AnsElem.int), ex⟩ order) =
      correctTexts ⟨p, ch, Ans.list (l.map AnsElem.int), ex⟩ := by
  have hlen : order.length = ch.length := by
    rw [hperm.length_eq, List.length_range]
  have hl' : ∀ m ∈ l, 0 ≤ m ∧ m < (order.length : Int) := by
    intro m hm
    rw [hlen]
    exact hl m hm
  rw [shuffleQ_list p ch _ ex order hch]
  rw [correctTexts_list, correctTexts_list]
  rw [filterMap_elemInt_map, filterMap_elemInt_map, filterMap_remapElem_map l order hl']
  have hRfilter :
      (pySortedSet (l.map fun m => ((order.indexOf m.toNat : Nat) : Int))).filter
          (fun n => decide (0 ≤ n ∧ n < ((permuteChoices ch order).length : Int))) =
        pySortedSet (l.map fun m => ((order.indexOf m.toNat : Nat) : Int)) := by
    rw [List.filter_eq_self]
    intro a ha
    have ha' := mem_pySortedSet.mp ha
    obtain ⟨m, hm, hEq⟩ := List.mem_map.mp ha'
    subst hEq
    have hmlt : m.toNat < ch.length := by
      have := hl m hm
      omega
    have hmemo : m.toNat ∈ order := hperm.mem_iff.mpr (List.mem_range.mpr hmlt)
    have hidx : order.indexOf m.toNat < order.length := List.indexOf_lt_length.mpr hmemo
    rw [decide_eq_true_iff]
    refine ⟨Int.natCast_nonneg _, ?_⟩
    rw [permuteChoices_length]
    exact_mod_cast hidx
  have hlfilter :
      l.filter (fun n => decide (0 ≤ n ∧ n < (ch.length : Int))) = l := by
    rw [List.filter_eq_self]
    intro a ha
    rw [decide_eq_true_iff]
    exact hl a ha
  rw [hRfilter, hlfilter]
  ext x
  simp only [List.mem_toFinset, List.mem_map, mem_pySortedSet]
  constructor
  · rintro ⟨a, ⟨m, hm, rfl⟩, rfl⟩
    have hmlt : m.toNat < ch.length := by
      have := hl m hm
      omega
    refine ⟨m, hm, ?_⟩
    rw [Int.toNat_natCast]
    exact (remap_text hperm hmlt).symm
  · rintro ⟨m, hm, rfl⟩
    have hmlt : m.toNat < ch.length := by
      have := hl m hm
      omega
    refine ⟨((order.indexOf m.toNat : Nat) : Int), ⟨m, hm, rfl⟩, ?_⟩
    rw [Int.toNat_natCast]
    exact remap_text hperm hmlt

/-- C3: for every permutation of the choice positions applied by choice
shuffling, a normalized MCQ (single in-range index answer, or sequence of
in-range index answers) has the same set of correct option texts before and
after the shuffle; a sequence answer is remapped to a sequence that is again
sorted ascending; and a question without choices is returned unchanged. -/
theorem shuffle_preserves_correct_texts (q : Question) (order : List Nat)
    (hperm : order.Perm (List.range q.choices.length)) :
    (q.choices = [] → shuffleQ q order = q) ∧
    (∀ n : Int, q.answer = Ans.int n → 0 ≤ n → n < (q.choices.length : Int) →
      correctTexts (shuffleQ q order) = correctTexts q) ∧
    (∀ l : List Int, q.answer = Ans.list (l.map AnsElem.int) →
      (∀ m ∈ l, 0 ≤ m ∧ m < (q.choices.length : Int)) →
      correctTexts (shuffleQ q order) = correctTexts q ∧
      ∃ l' : List Int, (shuffleQ q order).answer = Ans.list (l'.map AnsElem.int) ∧
        List.Sorted (· ≤ ·) l') := by
  obtain ⟨p, ch, a, ex⟩ := q
  dsimp only at hperm ⊢
  refine ⟨?_, ?_, ?_⟩
  · intro hch
    subst hch
    exact shuffleQ_empty p [] a ex order rfl
  · intro n hans h0 hlt
    subst hans
    have hch : ch.isEmpty = false := by
      cases ch with
      | nil =>
          simp only [List.length_nil, Nat.cast_zero] at hlt
          omega
      | cons c cs => rfl
    exact correctTexts_shuffle_int p ch n ex order hperm hch h0 hlt
  · intro l hans hl
    subst hans
    cases hche : ch.isEmpty with
    | true =>
        have hch0 : ch = [] := List.isEmpty_iff.mp hche
        have hl0 : l = [] := by
          cases l with
          | nil => rfl
          | cons x xs =>
              have hx := hl x (List.mem_cons_self x xs)
              rw [hch0] at hx
              simp only [List.length_nil, Nat.cast_zero] at hx
              omega
        subst hl0
        rw [shuffleQ_empty p ch _ ex order hche]
        exact ⟨rfl, [], rfl, List.sorted_nil⟩
    | false =>
        refine ⟨correctTexts_shuffle_list p ch l ex order hperm hche hl, ?_⟩
        rw [shuffleQ_list p ch _ ex order hche]
        exact ⟨pySortedSet ((l.map AnsElem.int).filterMap (remapElem order)), rfl,
          sorted_pySortedSet _⟩

/-- C3 witness: the permutation `[2, 0, 1]` of `["a", "b", "c"]` with the
single correct index `1` preserves the set of correct option texts. -/
theorem shuffle_preserves_correct_texts_witness :
    correctTexts (shuffleQ ⟨"p", ["a", "b", "c"], Ans.int 1, none⟩ [2, 0, 1]) =
      correctTexts ⟨"p", ["a", "b", "c"], Ans.int 1, none⟩ :=
  (shuffle_preserves_correct_texts ⟨"p", ["a", "b", "c"], Ans.int 1, none⟩ [2, 0, 1]
    (by decide)).2.1 1 rfl (by decide) (by decide)
